import Mathlib

/-!
Verification of the dialog subsystem of `opencode-helix` (`src/tui/app.rs`).

Strings are modelled as `List Char`; positions are UTF-8 byte offsets,
computed with `Char.utf8Size`, exactly as the Rust code indexes `String`s
by byte offsets.  Rust operations that can panic on a non-boundary index
(`String::insert`, `String::remove`, slicing) are modelled as `Option`s,
with `none` standing for the panic.
-/

set_option maxHeartbeats 1600000

namespace Hx

/-- Total UTF-8 byte length of a buffer, as Rust's `str::len`. -/
def utf8Len (l : List Char) : Nat := (l.map Char.utf8Size).sum

/-- Whether byte offset `p` is a code-point boundary of the buffer
(including `p = 0` and `p = len`), as Rust's `str::is_char_boundary`. -/
def isBoundary : List Char → Nat → Bool
  | _, 0 => true
  | [], _ + 1 => false
  | c :: rest, p + 1 =>
    if p + 1 < c.utf8Size then false else isBoundary rest (p + 1 - c.utf8Size)

/-- Rust `&s[..p]`: the first `p` bytes of `s`; `none` when `p` is not a
boundary (the Rust slice panics). -/
def takeBytes : List Char → Nat → Option (List Char)
  | _, 0 => some []
  | [], _ + 1 => none
  | c :: rest, p + 1 =>
    if c.utf8Size ≤ p + 1 then (takeBytes rest (p + 1 - c.utf8Size)).map (c :: ·)
    else none

/-- Rust `&s[p..]`: the bytes of `s` from offset `p` on; `none` when `p` is not
a boundary. -/
def dropBytes : List Char → Nat → Option (List Char)
  | l, 0 => some l
  | [], _ + 1 => none
  | c :: rest, p + 1 =>
    if c.utf8Size ≤ p + 1 then dropBytes rest (p + 1 - c.utf8Size)
    else none

/-- Rust `String::insert(p, x)`: insert a character at byte offset `p`;
`none` when `p` is not a boundary (the Rust call panics). -/
def strInsert : List Char → Nat → Char → Option (List Char)
  | l, 0, x => some (x :: l)
  | [], _ + 1, _ => none
  | c :: rest, p + 1, x =>
    if c.utf8Size ≤ p + 1 then (strInsert rest (p + 1 - c.utf8Size) x).map (c :: ·)
    else none

/-- Rust `String::remove(p)`: remove the character starting at byte
offset `p`; `none` when `p` is out of range or not a boundary. -/
def strRemove : List Char → Nat → Option (List Char)
  | [], _ => none
  | _ :: rest, 0 => some rest
  | c :: rest, p + 1 =>
    if c.utf8Size ≤ p + 1 then (strRemove rest (p + 1 - c.utf8Size)).map (c :: ·)
    else none

/-- Character-wise lower-casing, modelling Rust `str::to_lowercase` on the
ASCII-range identifiers the dialogs handle. -/
def lowerStr (l : List Char) : List Char := l.map Char.toLower

/-- Rust `str::contains(&str)`: substring search. -/
def strContains (hay needle : List Char) : Bool :=
  if needle.isPrefixOf hay then true
  else
    match hay with
    | [] => false
    | _ :: t => strContains t needle

/-- Rust `before.rfind('@')` fused with the slice `&before[at..]`: byte offset
of the last `'@'` together with the suffix starting at it. -/
def rfindAt : List Char → Option (Nat × List Char)
  | [] => none
  | c :: rest =>
    match rfindAt rest with
    | some (p, suf) => some (c.utf8Size + p, suf)
    | none => if c = '@' then some (0, c :: rest) else none

/-- Model of `find_at_word` from `src/tui/app.rs`: the `@`-token under the cursor.
Outer `none` = the byte slice `&input[..cursor]` panicked (cursor not on a
boundary); `some none` = no active token; `some (some (at, tok))` = token
`tok` starting at byte offset `at`. -/
def findAtWord (input : List Char) (cursor : Nat) : Option (Option (Nat × List Char)) :=
  match takeBytes input cursor with
  | none => none
  | some before =>
    match rfindAt before with
    | none => some none
    | some (atPos, tok) =>
      if tok.contains ' ' then some none else some (some (atPos, tok))

/-- Model of `filter_placeholders` from `src/tui/app.rs`. -/
def filterPlaceholders (tok : List Char) (names : List (List Char)) : List (List Char) :=
  names.filter (fun p => (lowerStr tok).isPrefixOf (lowerStr p))

/-- Loop body of `cursor_to_line_col`: walk `char_indices`, breaking when
the byte index reaches `pos`; count lines and columns. -/
def cursorToLineColAux : List Char → Nat → Nat → Nat → Nat → Nat × Nat
  | [], _, _, line, col => (line, col)
  | c :: rest, i, pos, line, col =>
    if pos ≤ i then (line, col)
    else if c = '\n' then cursorToLineColAux rest (i + c.utf8Size) pos (line + 1) 0
    else cursorToLineColAux rest (i + c.utf8Size) pos line (col + 1)

/-- Model of `cursor_to_line_col` from `src/tui/app.rs`. -/
def cursor_to_line_col (text : List Char) (pos : Nat) : Nat × Nat :=
  cursorToLineColAux text 0 pos 0 0

/-- Byte offset of the first `'\n'` in a buffer (Rust `str::find('\n')`). -/
def findNlOffset : List Char → Option Nat
  | [] => none
  | c :: rest => if c = '\n' then some 0 else (findNlOffset rest).map (c.utf8Size + ·)

/-- Rust `text[i..].find('\n').unwrap_or(text.len() - i)`: the length in bytes
of the current logical line, measured from the iteration point. -/
def lineEndRel (rem : List Char) : Nat :=
  match findNlOffset rem with
  | some p => p
  | none => utf8Len rem

/-- Loop body of `line_col_to_cursor`: `rem` is `text[i..]`, `i` the byte
offset reached so far, `lineStart` the byte offset of the current logical
line's start. -/
def lineColToCursorAux : List Char → Nat → Nat → Nat → Nat → Nat → Nat
  | [], i, curLine, lineStart, targetLine, targetCol =>
    if curLine = targetLine then lineStart + min targetCol (i - lineStart) else i
  | c :: rest, i, curLine, lineStart, targetLine, targetCol =>
    if curLine = targetLine then i + min targetCol (lineEndRel (c :: rest))
    else if c = '\n' then
      lineColToCursorAux rest (i + c.utf8Size) (curLine + 1) (i + c.utf8Size) targetLine targetCol
    else lineColToCursorAux rest (i + c.utf8Size) curLine lineStart targetLine targetCol

/-- Model of `line_col_to_cursor` from `src/tui/app.rs`. -/
def line_col_to_cursor (text : List Char) (targetLine targetCol : Nat) : Nat :=
  lineColToCursorAux text 0 0 0 targetLine targetCol

/-- A buffer whose characters are all single-byte (ASCII range). -/
def Ascii (l : List Char) : Prop := ∀ c ∈ l, c.utf8Size = 1

instance (l : List Char) : Decidable (Ascii l) :=
  inferInstanceAs (Decidable (∀ c ∈ l, c.utf8Size = 1))

theorem ascii_utf8Len {l : List Char} (h : Ascii l) : utf8Len l = l.length := by
  induction l with
  | nil => rfl
  | cons c rest ih =>
    have hc : c.utf8Size = 1 := h c (List.mem_cons_self c rest)
    have ht : utf8Len rest = rest.length := ih (fun d hd => h d (List.mem_cons_of_mem c hd))
    simp only [utf8Len, List.map_cons, List.sum_cons, hc, List.length_cons] at *
    omega

/-! ### Lemmas about `cursor_to_line_col` and `line_col_to_cursor` -/

theorem ctlcAux_shift (l : List Char) : ∀ k i pos line col,
    cursorToLineColAux l (i + k) (pos + k) line col = cursorToLineColAux l i pos line col := by
  induction l with
  | nil => intro k i pos line col; rfl
  | cons c rest ih =>
    intro k i pos line col
    by_cases h : pos ≤ i
    · have h' : pos + k ≤ i + k := Nat.add_le_add_right h k
      simp [cursorToLineColAux, h, h']
    · have h' : ¬ pos + k ≤ i + k := fun hx => h (Nat.le_of_add_le_add_right hx)
      have e : i + k + c.utf8Size = i + c.utf8Size + k := by omega
      by_cases hc : c = '\n'
      · simp only [cursorToLineColAux, if_neg h, if_neg h', if_pos hc]
        rw [e, ih]
      · simp only [cursorToLineColAux, if_neg h, if_neg h', if_neg hc]
        rw [e, ih]

theorem ctlcAux_line (l : List Char) : ∀ i pos line col,
    cursorToLineColAux l i pos line col =
      ((cursorToLineColAux l i pos 0 col).1 + line, (cursorToLineColAux l i pos 0 col).2) := by
  induction l with
  | nil => intro i pos line col; simp [cursorToLineColAux]
  | cons c rest ih =>
    intro i pos line col
    by_cases h : pos ≤ i
    · simp [cursorToLineColAux, h]
    · by_cases hc : c = '\n'
      · simp only [cursorToLineColAux, if_neg h, if_pos hc]
        rw [ih _ _ (line + 1) 0, ih _ _ 1 0]
        simp only [Prod.mk.injEq]
        exact ⟨by omega, trivial⟩
      · simp only [cursorToLineColAux, if_neg h, if_neg hc]
        exact ih _ _ line (col + 1)

theorem ctlcAux_fst_col (l : List Char) : ∀ i pos line col col',
    (cursorToLineColAux l i pos line col).1 = (cursorToLineColAux l i pos line col').1 := by
  induction l with
  | nil => intro i pos line col col'; rfl
  | cons c rest ih =>
    intro i pos line col col'
    by_cases h : pos ≤ i
    · simp [cursorToLineColAux, h]
    · by_cases hc : c = '\n'
      · simp [cursorToLineColAux, h, hc]
      · simp only [cursorToLineColAux, if_neg h, if_neg hc]
        exact ih _ _ line (col + 1) (col' + 1)

theorem ctlcAux_snd_col (l : List Char) : ∀ i pos col,
    (cursorToLineColAux l i pos 0 col).2 =
      if (cursorToLineColAux l i pos 0 0).1 = 0 then col + (cursorToLineColAux l i pos 0 0).2
      else (cursorToLineColAux l i pos 0 0).2 := by
  induction l with
  | nil => intro i pos col; simp [cursorToLineColAux]
  | cons c rest ih =>
    intro i pos col
    by_cases h : pos ≤ i
    · simp [cursorToLineColAux, h]
    · by_cases hc : c = '\n'
      · simp only [cursorToLineColAux, if_neg h, if_pos hc]
        rw [ctlcAux_line rest (i + c.utf8Size) pos 1 0]
        simp
      · simp only [cursorToLineColAux, if_neg h, if_neg hc]
        rw [ih _ _ (col + 1), ih _ _ 1,
          ctlcAux_fst_col rest (i + c.utf8Size) pos 0 1 0]
        by_cases hB : (cursorToLineColAux rest (i + c.utf8Size) pos 0 0).1 = 0 <;>
          simp [hB] <;> omega

theorem lctcAux_shift (l : List Char) : ∀ k m i curLine lineStart tl tc,
    lineColToCursorAux l (i + k) (curLine + m) (lineStart + k) (tl + m) tc =
      k + lineColToCursorAux l i curLine lineStart tl tc := by
  induction l with
  | nil =>
    intro k m i curLine lineStart tl tc
    by_cases h : curLine = tl
    · have h' : curLine + m = tl + m := by omega
      simp only [lineColToCursorAux, if_pos h, if_pos h', Nat.add_sub_add_right]
      omega
    · have h' : ¬ curLine + m = tl + m := by omega
      simp only [lineColToCursorAux, if_neg h, if_neg h']
      omega
  | cons c rest ih =>
    intro k m i curLine lineStart tl tc
    by_cases h : curLine = tl
    · have h' : curLine + m = tl + m := by omega
      simp only [lineColToCursorAux, if_pos h, if_pos h']
      omega
    · have h' : ¬ curLine + m = tl + m := by omega
      have e : i + k + c.utf8Size = i + c.utf8Size + k := by omega
      by_cases hc : c = '\n'
      · simp only [lineColToCursorAux, if_neg h, if_neg h', if_pos hc]
        rw [e, show curLine + m + 1 = curLine + 1 + m from by omega, ih]
      · simp only [lineColToCursorAux, if_neg h, if_neg h', if_neg hc]
        rw [e, ih]

theorem lctcAux_ls_irrel (l : List Char) : ∀ i curLine ls ls' tl tc, curLine ≠ tl →
    lineColToCursorAux l i curLine ls tl tc = lineColToCursorAux l i curLine ls' tl tc := by
  induction l with
  | nil => intro i curLine ls ls' tl tc h; simp [lineColToCursorAux, h]
  | cons c rest ih =>
    intro i curLine ls ls' tl tc h
    by_cases hc : c = '\n'
    · simp [lineColToCursorAux, h, hc]
    · simp only [lineColToCursorAux, if_neg h, if_neg hc]
      exact ih _ _ _ _ _ _ h

theorem utf8Len_cons (c : Char) (rest : List Char) :
    utf8Len (c :: rest) = c.utf8Size + utf8Len rest := by
  simp [utf8Len]

/-- On a prefix scan that crossed no newline, the column equals the number
of bytes scanned (single-byte characters). -/
theorem ctlc_no_nl_col (l : List Char) (hA : Ascii l) : ∀ q, q ≤ l.length →
    (cursorToLineColAux l 0 q 0 0).1 = 0 → (cursorToLineColAux l 0 q 0 0).2 = q := by
  induction l with
  | nil =>
    intro q hq _
    have : q = 0 := by simpa using hq
    subst this; rfl
  | cons c rest ih =>
    intro q hq h1
    cases q with
    | zero => rfl
    | succ q =>
      have hnotle : ¬ (q + 1 ≤ 0) := by omega
      have hc1 : c.utf8Size = 1 := hA c (List.mem_cons_self c rest)
      have hArest : Ascii rest := fun d hd => hA d (List.mem_cons_of_mem c hd)
      by_cases hc : c = '\n'
      · exfalso
        simp only [cursorToLineColAux, if_neg hnotle, if_pos hc] at h1
        rw [ctlcAux_line rest (0 + c.utf8Size) (q + 1) 1 0] at h1
        simp at h1
      · simp only [cursorToLineColAux, if_neg hnotle, if_neg hc, hc1, Nat.zero_add] at h1 ⊢
        have hs := ctlcAux_shift rest 1 0 q 0 1
        norm_num at hs
        rw [hs] at h1 ⊢
        rw [ctlcAux_fst_col rest 0 q 0 1 0] at h1
        have h2 := ctlcAux_snd_col rest 0 q 1
        rw [if_pos h1] at h2
        have hq' : q ≤ rest.length := by simp [List.length_cons] at hq; omega
        have h3 := ih hArest q hq' h1
        omega

/-- On a prefix scan that crossed no newline, the scanned bytes stay within
the first logical line. -/
theorem ctlc_no_nl_lineEnd (l : List Char) (hA : Ascii l) : ∀ q, q ≤ l.length →
    (cursorToLineColAux l 0 q 0 0).1 = 0 → q ≤ lineEndRel l := by
  induction l with
  | nil =>
    intro q hq _
    have : q = 0 := by simpa using hq
    subst this
    exact Nat.zero_le _
  | cons c rest ih =>
    intro q hq h1
    cases q with
    | zero => exact Nat.zero_le _
    | succ q =>
      have hnotle : ¬ (q + 1 ≤ 0) := by omega
      have hc1 : c.utf8Size = 1 := hA c (List.mem_cons_self c rest)
      have hArest : Ascii rest := fun d hd => hA d (List.mem_cons_of_mem c hd)
      by_cases hc : c = '\n'
      · exfalso
        simp only [cursorToLineColAux, if_neg hnotle, if_pos hc] at h1
        rw [ctlcAux_line rest (0 + c.utf8Size) (q + 1) 1 0] at h1
        simp at h1
      · have hle : lineEndRel (c :: rest) = c.utf8Size + lineEndRel rest := by
          simp only [lineEndRel, findNlOffset, if_neg hc]
          cases hfind : findNlOffset rest with
          | none => simp [utf8Len_cons]
          | some m => simp
        simp only [cursorToLineColAux, if_neg hnotle, if_neg hc, hc1, Nat.zero_add] at h1
        have hs := ctlcAux_shift rest 1 0 q 0 1
        norm_num at hs
        rw [hs] at h1
        rw [ctlcAux_fst_col rest 0 q 0 1 0] at h1
        have hq' : q ≤ rest.length := by simp [List.length_cons] at hq; omega
        have h3 := ih hArest q hq' h1
        rw [hle, hc1]
        omega

/-- Round trip for single-byte buffers: converting a byte position to
(line, column) and back is the identity. -/
theorem line_col_roundtrip (t : List Char) (hA : Ascii t) : ∀ p, p ≤ t.length →
    line_col_to_cursor t (cursor_to_line_col t p).1 (cursor_to_line_col t p).2 = p := by
  induction t with
  | nil =>
    intro p hp
    have : p = 0 := by simpa using hp
    subst this; rfl
  | cons c rest ih =>
    intro p hp
    have hArest : Ascii rest := fun d hd => hA d (List.mem_cons_of_mem c hd)
    have hc1 : c.utf8Size = 1 := hA c (List.mem_cons_self c rest)
    cases p with
    | zero =>
      simp [cursor_to_line_col, cursorToLineColAux, line_col_to_cursor, lineColToCursorAux]
    | succ q =>
      have hq : q ≤ rest.length := by simp [List.length_cons] at hp; omega
      have hnotle : ¬ (q + 1 ≤ 0) := by omega
      by_cases hc : c = '\n'
      · -- first character is a newline: both scans shift into `rest`
        have hctlc : cursor_to_line_col (c :: rest) (q + 1) =
            ((cursor_to_line_col rest q).1 + 1, (cursor_to_line_col rest q).2) := by
          simp only [cursor_to_line_col, cursorToLineColAux, if_neg hnotle, if_pos hc, hc1,
            Nat.zero_add]
          have hs := ctlcAux_shift rest 1 0 q 1 0
          norm_num at hs
          rw [hs]
          exact ctlcAux_line rest 0 q 1 0
        rw [hctlc]
        have hne : ¬ ((0 : Nat) = (cursor_to_line_col rest q).1 + 1) := by omega
        simp only [line_col_to_cursor, lineColToCursorAux, if_neg hne, if_pos hc, hc1,
          Nat.zero_add]
        have hs := lctcAux_shift rest 1 1 0 0 0 (cursor_to_line_col rest q).1
          (cursor_to_line_col rest q).2
        norm_num at hs
        rw [hs]
        have := ih hArest q hq
        simp only [line_col_to_cursor] at this
        omega
      · -- ordinary character
        have hfst : (cursor_to_line_col (c :: rest) (q + 1)).1 = (cursor_to_line_col rest q).1 := by
          simp only [cursor_to_line_col, cursorToLineColAux, if_neg hnotle, if_neg hc, hc1,
            Nat.zero_add]
          have hs := ctlcAux_shift rest 1 0 q 0 1
          norm_num at hs
          rw [hs]
          exact ctlcAux_fst_col rest 0 q 0 1 0
        have hsnd : (cursor_to_line_col (c :: rest) (q + 1)).2 =
            if (cursor_to_line_col rest q).1 = 0 then 1 + (cursor_to_line_col rest q).2
            else (cursor_to_line_col rest q).2 := by
          simp only [cursor_to_line_col, cursorToLineColAux, if_neg hnotle, if_neg hc, hc1,
            Nat.zero_add]
          have hs := ctlcAux_shift rest 1 0 q 0 1
          norm_num at hs
          rw [hs]
          rw [ctlcAux_snd_col rest 0 q 1]
        by_cases hB : (cursor_to_line_col rest q).1 = 0
        · -- cursor stays on the first logical line
          have hcol : (cursor_to_line_col rest q).2 = q :=
            ctlc_no_nl_col rest hArest q hq hB
          have hend : q ≤ lineEndRel rest :=
            ctlc_no_nl_lineEnd rest hArest q hq hB
          have hle : lineEndRel (c :: rest) = c.utf8Size + lineEndRel rest := by
            simp only [lineEndRel, findNlOffset, if_neg hc]
            cases hfind : findNlOffset rest with
            | none => simp [utf8Len_cons]
            | some m => simp
          rw [hsnd, if_pos hB, hcol, hfst, hB]
          simp only [line_col_to_cursor, lineColToCursorAux]
          norm_num [hle, hc1]
          omega
        · rw [hsnd, if_neg hB, hfst]
          have hne : ¬ ((0 : Nat) = (cursor_to_line_col rest q).1) := fun hx => hB hx.symm
          simp only [line_col_to_cursor, lineColToCursorAux, if_neg hne, if_neg hc, hc1,
            Nat.zero_add]
          rw [lctcAux_ls_irrel rest 1 0 0 1 (cursor_to_line_col rest q).1
            (cursor_to_line_col rest q).2 (fun hx => hB hx.symm)]
          have hs := lctcAux_shift rest 1 0 0 0 0 (cursor_to_line_col rest q).1
            (cursor_to_line_col rest q).2
          norm_num at hs
          rw [hs]
          have := ih hArest q hq
          simp only [line_col_to_cursor] at this
          omega

/-! ### Soft wrapping (`wrap_text` from `src/tui/app.rs`) -/

/-- A visual line after soft wrapping (struct `WrappedLine`). -/
structure WrappedLine where
  text : List Char
  logicalLine : Nat
  isFirst : Bool
  startPos : Nat
deriving DecidableEq

/-- Rust `str::split('\n')`: never empty; an empty string yields `[[]]`. -/
def splitNl : List Char → List (List Char)
  | [] => [[]]
  | c :: rest =>
    if c = '\n' then [] :: splitNl rest
    else
      match splitNl rest with
      | [] => [[c]]
      | g :: gs => (c :: g) :: gs

/-- Body of the chunking loop of `wrap_text`, structurally recursive on a
fuel argument so that it evaluates by kernel reduction.  Each round
consumes at least one character, so with fuel = line length the zero-fuel
branch is unreachable (and harmless: it emits the remaining characters as
one row, like the "fits" branch). -/
def chunkEntriesGo (k logical : Nat) : Nat → List Char → Nat → Bool → List WrappedLine
  | _, [], _, _ => []
  | 0, c :: rest, off, first => [⟨c :: rest, logical, first, off⟩]
  | fuel + 1, c :: rest, off, first =>
    if (c :: rest).length ≤ k + 1 then [⟨c :: rest, logical, first, off⟩]
    else
      ⟨(c :: rest).take (k + 1), logical, first, off⟩ ::
        chunkEntriesGo k logical fuel ((c :: rest).drop (k + 1))
          (off + utf8Len ((c :: rest).take (k + 1))) false

/-- The chunking loop of `wrap_text` for a non-empty logical line with
effective width `k + 1`: take `k + 1` characters per visual row, advancing
the byte offset by each chunk's byte length. -/
def chunkEntries (k logical : Nat) (l : List Char) (off : Nat) (first : Bool) :
    List WrappedLine :=
  chunkEntriesGo k logical l.length l off first

/-- The per-logical-line part of `wrap_text`: empty lines yield one empty
visual row; an effective width of zero falls back to the whole line. -/
def lineEntries (width pw logical : Nat) (line : List Char) (off : Nat) : List WrappedLine :=
  if line.isEmpty then [⟨[], logical, true, off⟩]
  else
    match width - pw with
    | 0 => [⟨line, logical, true, off⟩]
    | k + 1 => chunkEntries k logical line off true

/-- The outer loop of `wrap_text` over the logical lines, threading the
logical index and the byte offset (`+ 1` for each newline). -/
def wrapLines (width pw : Nat) : List (List Char) → Nat → Nat → List WrappedLine
  | [], _, _ => []
  | line :: rest, logical, off =>
    lineEntries width pw logical line off ++
      wrapLines width pw rest (logical + 1) (off + utf8Len line + 1)

/-- Model of `wrap_text` from `src/tui/app.rs`. -/
def wrap_text (text : List Char) (width pw : Nat) : List WrappedLine :=
  let w := wrapLines width pw (splitNl text) 0 0
  if w.isEmpty then [⟨[], 0, true, 0⟩] else w

/-- The reassembly described by the spec: visual rows concatenated in
order, with a newline inserted exactly where the logical line changes. -/
def reassemble : List WrappedLine → List Char
  | [] => []
  | [w] => w.text
  | w :: w' :: rest =>
    w.text ++ (if w.logicalLine = w'.logicalLine then [] else ['\n']) ++ reassemble (w' :: rest)

/-- Joining logical lines with newlines (the inverse of `splitNl`). -/
def joinNl : List (List Char) → List Char
  | [] => []
  | [l] => l
  | l :: l' :: rest => l ++ '\n' :: joinNl (l' :: rest)

theorem splitNl_ne_nil (t : List Char) : splitNl t ≠ [] := by
  cases t with
  | nil => simp [splitNl]
  | cons c rest =>
    simp only [splitNl]
    by_cases hc : c = '\n'
    · simp [hc]
    · simp only [if_neg hc]
      cases splitNl rest <;> simp

theorem joinNl_splitNl (t : List Char) : joinNl (splitNl t) = t := by
  induction t with
  | nil => rfl
  | cons c rest ih =>
    by_cases hc : c = '\n'
    · subst hc
      simp only [splitNl, if_pos rfl]
      cases h : splitNl rest with
      | nil => exact absurd h (splitNl_ne_nil rest)
      | cons g gs =>
        rw [h] at ih
        simp [joinNl, ih]
    · simp only [splitNl, if_neg hc]
      cases h : splitNl rest with
      | nil => exact absurd h (splitNl_ne_nil rest)
      | cons g gs =>
        rw [h] at ih
        cases gs with
        | nil => simp [joinNl] at ih ⊢; exact ih
        | cons g' gs' => simp [joinNl] at ih ⊢; rw [ih]

theorem chunkEntriesGo_texts (k g : Nat) : ∀ (fuel : Nat) (l : List Char) (off : Nat)
    (first : Bool), ((chunkEntriesGo k g fuel l off first).map WrappedLine.text).flatten = l := by
  intro fuel
  induction fuel with
  | zero =>
    intro l off first
    cases l <;> simp [chunkEntriesGo]
  | succ fuel ih =>
    intro l off first
    cases l with
    | nil => simp [chunkEntriesGo]
    | cons c t =>
      by_cases h : (c :: t).length ≤ k + 1
      · simp only [chunkEntriesGo, if_pos h]
        simp
      · simp only [chunkEntriesGo, if_neg h, List.map_cons, List.flatten_cons]
        rw [ih]
        exact List.take_append_drop (k + 1) (c :: t)

theorem chunkEntries_texts (k g : Nat) (l : List Char) (off : Nat) (first : Bool) :
    ((chunkEntries k g l off first).map WrappedLine.text).flatten = l :=
  chunkEntriesGo_texts k g l.length l off first

theorem chunkEntriesGo_logical (k g : Nat) : ∀ (fuel : Nat) (l : List Char) (off : Nat)
    (first : Bool), ∀ e ∈ chunkEntriesGo k g fuel l off first, e.logicalLine = g := by
  intro fuel
  induction fuel with
  | zero =>
    intro l off first
    cases l <;> simp [chunkEntriesGo]
  | succ fuel ih =>
    intro l off first
    cases l with
    | nil => simp [chunkEntriesGo]
    | cons c t =>
      by_cases h : (c :: t).length ≤ k + 1
      · simp only [chunkEntriesGo, if_pos h]
        simp
      · simp only [chunkEntriesGo, if_neg h]
        intro e he
        rcases List.mem_cons.mp he with rfl | he'
        · rfl
        · exact ih _ _ _ e he'

theorem chunkEntries_logical (k g : Nat) (l : List Char) (off : Nat) (first : Bool) :
    ∀ e ∈ chunkEntries k g l off first, e.logicalLine = g :=
  chunkEntriesGo_logical k g l.length l off first

theorem chunkEntries_ne_nil (k g : Nat) (c : Char) (t : List Char) (off : Nat) (first : Bool) :
    chunkEntries k g (c :: t) off first ≠ [] := by
  simp only [chunkEntries, List.length_cons, chunkEntriesGo]
  by_cases h : t.length ≤ k
  · simp [if_pos h]
  · simp [if_neg h]

theorem lineEntries_texts (width pw g : Nat) (line : List Char) (off : Nat) :
    ((lineEntries width pw g line off).map WrappedLine.text).flatten = line := by
  unfold lineEntries
  by_cases h : line.isEmpty
  · simp [h, List.isEmpty_iff.mp h]
  · simp only [if_neg h]
    cases width - pw with
    | zero => simp
    | succ k => exact chunkEntries_texts k g line off true

theorem lineEntries_logical (width pw g : Nat) (line : List Char) (off : Nat) :
    ∀ e ∈ lineEntries width pw g line off, e.logicalLine = g := by
  unfold lineEntries
  by_cases h : line.isEmpty
  · simp [h]
  · simp only [if_neg h]
    cases width - pw with
    | zero => simp
    | succ k => exact chunkEntries_logical k g line off true

theorem lineEntries_ne_nil (width pw g : Nat) (line : List Char) (off : Nat) :
    lineEntries width pw g line off ≠ [] := by
  unfold lineEntries
  by_cases h : line.isEmpty
  · simp [h]
  · simp only [if_neg h]
    cases hw : width - pw with
    | zero => simp
    | succ k =>
      cases line with
      | nil => simp at h
      | cons c t => exact chunkEntries_ne_nil k g c t off true

theorem wrapLines_ne_nil (width pw : Nat) (line : List Char) (rest : List (List Char))
    (g off : Nat) : wrapLines width pw (line :: rest) g off ≠ [] := by
  simp only [wrapLines]
  intro h
  rcases List.append_eq_nil.mp h with ⟨h1, _⟩
  exact lineEntries_ne_nil width pw g line off h1

theorem wrapLines_logical_ge (width pw : Nat) : ∀ (lines : List (List Char)) (g off : Nat),
    ∀ e ∈ wrapLines width pw lines g off, g ≤ e.logicalLine := by
  intro lines
  induction lines with
  | nil => intro g off e he; simp [wrapLines] at he
  | cons line rest ih =>
    intro g off e he
    simp only [wrapLines] at he
    rcases List.mem_append.mp he with h1 | h2
    · exact Nat.le_of_eq (lineEntries_logical width pw g line off e h1).symm
    · exact Nat.le_of_succ_le (ih (g + 1) (off + utf8Len line + 1) e h2)

theorem reassemble_append (g : Nat) : ∀ (A B : List WrappedLine), A ≠ [] →
    (∀ e ∈ A, e.logicalLine = g) →
    (∀ b, B.head? = some b → b.logicalLine ≠ g) →
    reassemble (A ++ B) =
      (A.map WrappedLine.text).flatten ++
        (match B with
         | [] => []
         | _ :: _ => '\n' :: reassemble B) := by
  intro A
  induction A with
  | nil => intro B h; exact absurd rfl h
  | cons a A' ih =>
    intro B _ hAg hB
    cases A' with
    | nil =>
      cases B with
      | nil => simp [reassemble]
      | cons b bs =>
        have hag : a.logicalLine = g := hAg a (List.mem_cons_self a [])
        have hbg : b.logicalLine ≠ g := hB b rfl
        have hne : ¬ (a.logicalLine = b.logicalLine) := by
          rw [hag]; exact fun hx => hbg hx.symm
        simp [reassemble, if_neg hne]
    | cons a' A'' =>
      have hag : a.logicalLine = g := hAg a (List.mem_cons_self a _)
      have hag' : a'.logicalLine = g := hAg a' (by simp)
      have heq : a.logicalLine = a'.logicalLine := by rw [hag, hag']
      have hstep : reassemble ((a :: a' :: A'') ++ B) =
          a.text ++ reassemble ((a' :: A'') ++ B) := by
        simp [reassemble, if_pos heq]
      rw [hstep, ih B (by simp) (fun e he => hAg e (List.mem_cons_of_mem a he)) hB]
      simp [List.append_assoc]

theorem reassemble_wrapLines (width pw : Nat) : ∀ (lines : List (List Char)) (g off : Nat),
    lines ≠ [] → reassemble (wrapLines width pw lines g off) = joinNl lines := by
  intro lines
  induction lines with
  | nil => intro g off h; exact absurd rfl h
  | cons line rest ih =>
    intro g off _
    cases rest with
    | nil =>
      rw [show wrapLines width pw [line] g off =
          lineEntries width pw g line off ++ [] from rfl]
      rw [reassemble_append g (lineEntries width pw g line off) [] (lineEntries_ne_nil _ _ _ _ _)
        (lineEntries_logical _ _ _ _ _) (by intro b hb; simp at hb)]
      simp [joinNl, lineEntries_texts]
    | cons l2 rest' =>
      rw [show wrapLines width pw (line :: l2 :: rest') g off =
          lineEntries width pw g line off ++
            wrapLines width pw (l2 :: rest') (g + 1) (off + utf8Len line + 1) from rfl]
      have hBne : wrapLines width pw (l2 :: rest') (g + 1) (off + utf8Len line + 1) ≠ [] :=
        wrapLines_ne_nil width pw l2 rest' (g + 1) (off + utf8Len line + 1)
      rw [reassemble_append g (lineEntries width pw g line off) _ (lineEntries_ne_nil _ _ _ _ _)
        (lineEntries_logical _ _ _ _ _) ?hhead]
      case hhead =>
        intro b hb
        have hmem : b ∈ wrapLines width pw (l2 :: rest') (g + 1) (off + utf8Len line + 1) :=
          List.mem_of_mem_head? hb
        have := wrapLines_logical_ge width pw (l2 :: rest') (g + 1) (off + utf8Len line + 1) b hmem
        omega
      cases hW : wrapLines width pw (l2 :: rest') (g + 1) (off + utf8Len line + 1) with
      | nil => exact absurd hW hBne
      | cons w ws =>
        rw [← hW, ih (g + 1) (off + utf8Len line + 1) (by simp)]
        simp [joinNl, lineEntries_texts]
        rw [hW]

/-- The `wrapLines` output is nonempty for the (always nonempty) output of
`splitNl`, so the defensive fallback branch of `wrap_text` is dead. -/
theorem wrap_text_eq (text : List Char) (width pw : Nat) :
    wrap_text text width pw = wrapLines width pw (splitNl text) 0 0 := by
  unfold wrap_text
  cases hs : splitNl text with
  | nil => exact absurd hs (splitNl_ne_nil text)
  | cons l ls =>
    have h := wrapLines_ne_nil width pw l ls 0 0
    cases hW : wrapLines width pw (l :: ls) 0 0 with
    | nil => exact absurd hW h
    | cons w ws => simp

/-! ### The input dialog state machine (`run_ask` from `src/tui/app.rs`)

One loop iteration processes at most one key event: the loop first
recomputes the completion list and the autocomplete flags (as the code
does between drawing and reading a key), then dispatches on the key.
Render-only state (the blink timer) is omitted; `last_text_width` and the
prompt width are configuration (they are recomputed from the constant
terminal size on every frame before any key is handled), and the visible
line count is the constant 5 from the code. -/

/-- Key codes the dialogs dispatch on (crossterm `KeyCode` subset). -/
inductive KeyCode
  | chr (c : Char)
  | enter
  | esc
  | tab
  | backTab
  | backspace
  | delete
  | left
  | right
  | up
  | down
  | home
  | endKey
deriving DecidableEq

/-- A key event with its modifier flags (Shift is never inspected). -/
structure Key where
  code : KeyCode
  ctrl : Bool
  alt : Bool
deriving DecidableEq

def mkKey (c : KeyCode) : Key := ⟨c, false, false⟩

def mkChar (c : Char) : Key := ⟨.chr c, false, false⟩

/-- Caller-supplied configuration of `run_ask`: the placeholder names for
autocomplete, and the geometry constants. -/
structure AskCfg where
  placeholderNames : List (List Char)
  textWidth : Nat
  prefixLen : Nat
deriving DecidableEq

/-- The mutable state of the `run_ask` loop. -/
structure AskSt where
  input : List Char
  cursor : Nat
  focus : Nat
  scroll : Nat
  acActive : Bool
  acSel : Nat
deriving DecidableEq

/-- Result of a dialog (`AppResult`). -/
inductive AppRes
  | submit (s : List Char)
  | cancel
deriving DecidableEq

/-- One step of the dialog loop: keep running or return. -/
inductive AskStep
  | cont (st : AskSt)
  | done (r : AppRes)
deriving DecidableEq

/-- The constant `input_visible_lines = 5` in `run_ask`; it is 5 in `run_ask`. -/
def inputVisibleLines : Nat := 5

/-- Rust `str::lines()` (`\r` stripping is irrelevant here: no dialog
input ever contains `\r`). -/
def strLines (t : List Char) : List (List Char) :=
  let parts := splitNl t
  if parts.getLast? = some [] then parts.dropLast else parts

/-- Model of `count_lines` from `src/tui/app.rs`. -/
def count_lines (t : List Char) : Nat :=
  if t.isEmpty then 1
  else (strLines t).length + (if t.getLast? = some '\n' then 1 else 0)

/-- Model of `get_line_length` from `src/tui/app.rs`. -/
def get_line_length (t : List Char) (idx : Nat) : Nat :=
  (((strLines t)[idx]?).map List.length).getD 0

/-- Scan of `cursor_to_visual_pos`: first wrapped line whose byte span
contains the cursor. -/
def cvpFind : List WrappedLine → Nat → Nat → Option (Nat × Nat)
  | [], _, _ => none
  | w :: rest, i, pos =>
    if w.startPos ≤ pos ∧ pos ≤ w.startPos + utf8Len w.text then some (i, pos - w.startPos)
    else cvpFind rest (i + 1) pos

/-- Model of `cursor_to_visual_pos` from `src/tui/app.rs`. -/
def cursor_to_visual_pos (text : List Char) (pos width pw : Nat) : Nat × Nat :=
  let wrapped := wrap_text text width pw
  match cvpFind wrapped 0 pos with
  | some rc => rc
  | none => (wrapped.length - 1, ((wrapped.getLast?).map (fun w => utf8Len w.text)).getD 0)

/-- Model of `update_scroll_for_cursor` from `src/tui/app.rs`, as a pure function
returning the new scroll offset. -/
def update_scroll_for_cursor (text : List Char) (pos scroll visible width pw : Nat) : Nat :=
  let r := (cursor_to_visual_pos text pos width pw).1
  if r < scroll then r
  else if scroll + visible ≤ r then r - visible + 1
  else scroll

/-- Apply `update_scroll_for_cursor` to a state, as the key handlers do
after edits and most motions. -/
def withScroll (cfg : AskCfg) (st : AskSt) : AskSt :=
  { st with
    scroll := update_scroll_for_cursor st.input st.cursor st.scroll inputVisibleLines
      cfg.textWidth cfg.prefixLen }

/-- The list `current_completions` as recomputed at the top of every loop
iteration; `none` models the panic of the slice inside `find_at_word`. -/
def computeCompletions (cfg : AskCfg) (st : AskSt) : Option (List (List Char)) :=
  match findAtWord st.input st.cursor with
  | none => none
  | some none => some []
  | some (some (_, tok)) => some (filterPlaceholders tok cfg.placeholderNames)

/-- The autocomplete-state update performed before key dispatch:
active iff completions exist and focus is on the input; the selection is
reset to 0 when out of range, and cleared when inactive. -/
def updateFromComps (st : AskSt) (comps : List (List Char)) : AskSt :=
  if comps ≠ [] ∧ st.focus = 0 then
    { st with acActive := true, acSel := if comps.length ≤ st.acSel then 0 else st.acSel }
  else { st with acActive := false, acSel := 0 }

/-- Accepting the highlighted completion (Tab/Enter while the popup is
active): replace the token under the cursor, append one space, move the cursor
after it, close the popup. -/
def acceptCompletion (st : AskSt) (comps : List (List Char)) : Option AskStep :=
  match findAtWord st.input st.cursor with
  | none => none
  | some none => some (.cont st)
  | some (some (atPos, _)) =>
    match comps[st.acSel]? with
    | none => none
    | some comp =>
      match takeBytes st.input atPos, dropBytes st.input st.cursor with
      | some pre, some suf =>
        let cur1 := atPos + utf8Len comp
        match strInsert (pre ++ comp ++ suf) cur1 ' ' with
        | none => none
        | some inp' =>
          some (.cont { st with input := inp', cursor := cur1 + 1, acActive := false, acSel := 0 })
      | _, _ => none

/-- The main `match key.code` of `run_ask` (reached when the autocomplete
popup did not intercept the key). -/
def askMain (cfg : AskCfg) (st : AskSt) (k : Key) : Option AskStep :=
  match k.code with
  | .tab => some (.cont (if st.acActive then st else { st with focus := (st.focus + 1) % 3 }))
  | .backTab => some (.cont { st with focus := if st.focus = 0 then 2 else st.focus - 1 })
  | .enter =>
    if st.focus = 0 ∨ st.focus = 1 then
      if st.input.isEmpty then some (.cont st) else some (.done (.submit st.input))
    else if st.focus = 2 then some (.done .cancel)
    else some (.cont st)
  | .esc => some (.done .cancel)
  | .chr c =>
    if c = 'c' ∧ k.ctrl then some (.done .cancel)
    else if st.focus = 0 ∧ k.ctrl = false ∧ k.alt = false then
      match strInsert st.input st.cursor c with
      | none => none
      | some inp' => some (.cont (withScroll cfg { st with input := inp', cursor := st.cursor + 1 }))
    else some (.cont st)
  | .up =>
    if st.focus = 0 ∧ st.acActive = false then
      if 0 < (cursor_to_line_col st.input st.cursor).1 then
        some (.cont (withScroll cfg { st with
          cursor := line_col_to_cursor st.input ((cursor_to_line_col st.input st.cursor).1 - 1)
            (cursor_to_line_col st.input st.cursor).2 }))
      else some (.cont st)
    else some (.cont st)
  | .down =>
    if st.focus = 0 ∧ st.acActive = false then
      if (cursor_to_line_col st.input st.cursor).1 < count_lines st.input - 1 then
        some (.cont (withScroll cfg { st with
          cursor := line_col_to_cursor st.input ((cursor_to_line_col st.input st.cursor).1 + 1)
            (cursor_to_line_col st.input st.cursor).2 }))
      else some (.cont st)
    else some (.cont st)
  | .backspace =>
    if st.focus = 0 then
      if 0 < st.cursor then
        match strRemove st.input (st.cursor - 1) with
        | none => none
        | some inp' =>
          some (.cont (withScroll cfg { st with input := inp', cursor := st.cursor - 1 }))
      else some (.cont st)
    else some (.cont st)
  | .delete =>
    if st.focus = 0 then
      if st.cursor < utf8Len st.input then
        match strRemove st.input st.cursor with
        | none => none
        | some inp' => some (.cont { st with input := inp' })
      else some (.cont st)
    else some (.cont st)
  | .left =>
    if st.focus = 0 then
      if 0 < st.cursor then some (.cont (withScroll cfg { st with cursor := st.cursor - 1 }))
      else some (.cont st)
    else if 0 < st.focus then some (.cont { st with focus := st.focus - 1 })
    else some (.cont st)
  | .right =>
    if st.focus = 0 then
      if st.cursor < utf8Len st.input then
        some (.cont (withScroll cfg { st with cursor := st.cursor + 1 }))
      else some (.cont st)
    else if 0 < st.focus ∧ st.focus < 2 then some (.cont { st with focus := st.focus + 1 })
    else some (.cont st)
  | .home =>
    if st.focus = 0 then
      some (.cont { st with
        cursor := line_col_to_cursor st.input (cursor_to_line_col st.input st.cursor).1 0 })
    else some (.cont st)
  | .endKey =>
    if st.focus = 0 then
      some (.cont { st with
        cursor := line_col_to_cursor st.input (cursor_to_line_col st.input st.cursor).1
          (get_line_length st.input (cursor_to_line_col st.input st.cursor).1) })
    else some (.cont st)

/-- Key dispatch including the autocomplete interception block. -/
def askHandle (cfg : AskCfg) (st : AskSt) (comps : List (List Char)) (k : Key) : Option AskStep :=
  if st.acActive ∧ comps ≠ [] then
    match k.code with
    | .down => some (.cont { st with acSel := (st.acSel + 1) % comps.length })
    | .up =>
      some (.cont { st with acSel := if st.acSel = 0 then comps.length - 1 else st.acSel - 1 })
    | .chr c =>
      if c = 'n' ∧ k.ctrl then some (.cont { st with acSel := (st.acSel + 1) % comps.length })
      else if c = 'p' ∧ k.ctrl then
        some (.cont { st with acSel := if st.acSel = 0 then comps.length - 1 else st.acSel - 1 })
      else askMain cfg st k
    | .tab => acceptCompletion st comps
    | .enter => acceptCompletion st comps
    | .esc => some (.cont { st with acActive := false, acSel := 0 })
    | _ => askMain cfg st k
  else askMain cfg st k

/-- One full loop iteration of `run_ask` on a key event. -/
def askTick (cfg : AskCfg) (st : AskSt) (k : Key) : Option AskStep :=
  match computeCompletions cfg st with
  | none => none
  | some comps => askHandle cfg (updateFromComps st comps) comps k

/-- The state at dialog entry: cursor at the end of the initial text. -/
def askInit (initial : List Char) : AskSt :=
  { input := initial, cursor := utf8Len initial, focus := 0, scroll := 0,
    acActive := false, acSel := 0 }

/-- Run the loop over a list of key events; `some (some r)` = returned
`r`, `some none` = still running, `none` = panicked. -/
def askRun (cfg : AskCfg) : AskSt → List Key → Option (Option AppRes)
  | _, [] => some none
  | st, k :: ks =>
    match askTick cfg st k with
    | none => none
    | some (.done r) => some (some r)
    | some (.cont st') => askRun cfg st' ks

/-! ### Helper lemmas about the machine -/

@[simp] theorem updateFromComps_input (st : AskSt) (comps : List (List Char)) :
    (updateFromComps st comps).input = st.input := by
  unfold updateFromComps; split <;> rfl

@[simp] theorem updateFromComps_cursor (st : AskSt) (comps : List (List Char)) :
    (updateFromComps st comps).cursor = st.cursor := by
  unfold updateFromComps; split <;> rfl

@[simp] theorem updateFromComps_focus (st : AskSt) (comps : List (List Char)) :
    (updateFromComps st comps).focus = st.focus := by
  unfold updateFromComps; split <;> rfl

@[simp] theorem updateFromComps_scroll (st : AskSt) (comps : List (List Char)) :
    (updateFromComps st comps).scroll = st.scroll := by
  unfold updateFromComps; split <;> rfl

@[simp] theorem updateFromComps_nil_acActive (st : AskSt) :
    (updateFromComps st []).acActive = false := by
  unfold updateFromComps
  rw [if_neg (by simp)]

/-- The cursor's visual row lies in the visible window. -/
def cursorRowInWindow (cfg : AskCfg) (st : AskSt) : Bool :=
  decide (st.scroll ≤ (cursor_to_visual_pos st.input st.cursor cfg.textWidth cfg.prefixLen).1 ∧
    (cursor_to_visual_pos st.input st.cursor cfg.textWidth cfg.prefixLen).1 <
      st.scroll + inputVisibleLines)

theorem update_scroll_window (text : List Char) (pos scroll visible width pw : Nat)
    (hv : 1 ≤ visible) :
    update_scroll_for_cursor text pos scroll visible width pw ≤
        (cursor_to_visual_pos text pos width pw).1 ∧
      (cursor_to_visual_pos text pos width pw).1 <
        update_scroll_for_cursor text pos scroll visible width pw + visible := by
  simp only [update_scroll_for_cursor]
  split_ifs <;> omega

theorem withScroll_window (cfg : AskCfg) (st : AskSt) :
    cursorRowInWindow cfg (withScroll cfg st) = true := by
  unfold cursorRowInWindow withScroll
  rw [decide_eq_true_iff]
  exact update_scroll_window st.input st.cursor st.scroll inputVisibleLines
    cfg.textWidth cfg.prefixLen (by norm_num [inputVisibleLines])

theorem askHandle_chr (cfg : AskCfg) (stu : AskSt) (comps : List (List Char)) (c : Char) :
    askHandle cfg stu comps (mkChar c) = askMain cfg stu (mkChar c) := by
  unfold askHandle
  split
  · simp [mkChar]
  · rfl

theorem askHandle_other (cfg : AskCfg) (stu : AskSt) (comps : List (List Char)) (k : Key)
    (hk : k = mkKey .backspace ∨ k = mkKey .delete ∨ k = mkKey .left ∨ k = mkKey .right ∨
      k = mkKey .home ∨ k = mkKey .endKey) :
    askHandle cfg stu comps k = askMain cfg stu k := by
  unfold askHandle
  rcases hk with rfl | rfl | rfl | rfl | rfl | rfl <;> (split <;> rfl)

theorem askHandle_nil_comps (cfg : AskCfg) (stu : AskSt) (k : Key) :
    askHandle cfg stu [] k = askMain cfg stu k := by
  unfold askHandle
  rw [if_neg (by simp)]

theorem askTick_none (cfg : AskCfg) (st : AskSt) (k : Key)
    (hc : computeCompletions cfg st = none) : askTick cfg st k = none := by
  unfold askTick
  rw [hc]

theorem askTick_some (cfg : AskCfg) (st : AskSt) (k : Key) (comps : List (List Char))
    (hc : computeCompletions cfg st = some comps) :
    askTick cfg st k = askHandle cfg (updateFromComps st comps) comps k := by
  unfold askTick
  rw [hc]

theorem askMain_window_chr (cfg : AskCfg) (st : AskSt) (c : Char) (st' : AskSt)
    (h0 : st.focus = 0) (hk : askMain cfg st (mkChar c) = some (.cont st')) :
    cursorRowInWindow cfg st' = true := by
  simp only [mkChar, askMain] at hk
  rw [if_neg (by simp), if_pos (by simp [h0])] at hk
  cases hins : strInsert st.input st.cursor c with
  | none => rw [hins] at hk; cases hk
  | some inp' =>
    rw [hins] at hk
    simp only [Option.some.injEq, AskStep.cont.injEq] at hk
    rw [← hk]
    exact withScroll_window cfg _

theorem askMain_window_backspace (cfg : AskCfg) (st st' : AskSt)
    (h0 : st.focus = 0) (hcur : 0 < st.cursor)
    (hk : askMain cfg st (mkKey .backspace) = some (.cont st')) :
    cursorRowInWindow cfg st' = true := by
  simp only [mkKey, askMain] at hk
  rw [if_pos h0, if_pos hcur] at hk
  cases hrem : strRemove st.input (st.cursor - 1) with
  | none => rw [hrem] at hk; cases hk
  | some inp' =>
    rw [hrem] at hk
    simp only [Option.some.injEq, AskStep.cont.injEq] at hk
    rw [← hk]
    exact withScroll_window cfg _

theorem askMain_window_left (cfg : AskCfg) (st st' : AskSt)
    (h0 : st.focus = 0) (hcur : 0 < st.cursor)
    (hk : askMain cfg st (mkKey .left) = some (.cont st')) :
    cursorRowInWindow cfg st' = true := by
  simp only [mkKey, askMain] at hk
  rw [if_pos h0, if_pos hcur] at hk
  simp only [Option.some.injEq, AskStep.cont.injEq] at hk
  rw [← hk]
  exact withScroll_window cfg _

theorem askMain_window_right (cfg : AskCfg) (st st' : AskSt)
    (h0 : st.focus = 0) (hcur : st.cursor < utf8Len st.input)
    (hk : askMain cfg st (mkKey .right) = some (.cont st')) :
    cursorRowInWindow cfg st' = true := by
  simp only [mkKey, askMain] at hk
  rw [if_pos h0, if_pos hcur] at hk
  simp only [Option.some.injEq, AskStep.cont.injEq] at hk
  rw [← hk]
  exact withScroll_window cfg _

theorem askMain_window_up (cfg : AskCfg) (st st' : AskSt)
    (h0 : st.focus = 0) (hA : st.acActive = false)
    (hline : 0 < (cursor_to_line_col st.input st.cursor).1)
    (hk : askMain cfg st (mkKey .up) = some (.cont st')) :
    cursorRowInWindow cfg st' = true := by
  simp only [mkKey, askMain] at hk
  rw [if_pos ⟨h0, hA⟩, if_pos hline] at hk
  simp only [Option.some.injEq, AskStep.cont.injEq] at hk
  rw [← hk]
  exact withScroll_window cfg _

theorem askMain_window_down (cfg : AskCfg) (st st' : AskSt)
    (h0 : st.focus = 0) (hA : st.acActive = false)
    (hline : (cursor_to_line_col st.input st.cursor).1 < count_lines st.input - 1)
    (hk : askMain cfg st (mkKey .down) = some (.cont st')) :
    cursorRowInWindow cfg st' = true := by
  simp only [mkKey, askMain] at hk
  rw [if_pos ⟨h0, hA⟩, if_pos hline] at hk
  simp only [Option.some.injEq, AskStep.cont.injEq] at hk
  rw [← hk]
  exact withScroll_window cfg _

theorem askMain_scroll_delete (cfg : AskCfg) (st st' : AskSt)
    (hk : askMain cfg st (mkKey .delete) = some (.cont st')) :
    st'.scroll = st.scroll := by
  simp only [mkKey, askMain] at hk
  by_cases h0 : st.focus = 0
  · rw [if_pos h0] at hk
    by_cases hcur : st.cursor < utf8Len st.input
    · rw [if_pos hcur] at hk
      cases hrem : strRemove st.input st.cursor with
      | none => rw [hrem] at hk; cases hk
      | some inp' =>
        rw [hrem] at hk
        simp only [Option.some.injEq, AskStep.cont.injEq] at hk
        rw [← hk]
    · rw [if_neg hcur] at hk
      simp only [Option.some.injEq, AskStep.cont.injEq] at hk
      rw [← hk]
  · rw [if_neg h0] at hk
    simp only [Option.some.injEq, AskStep.cont.injEq] at hk
    rw [← hk]

theorem askMain_scroll_home (cfg : AskCfg) (st st' : AskSt)
    (hk : askMain cfg st (mkKey .home) = some (.cont st')) :
    st'.scroll = st.scroll := by
  simp only [mkKey, askMain] at hk
  by_cases h0 : st.focus = 0
  · rw [if_pos h0] at hk
    simp only [Option.some.injEq, AskStep.cont.injEq] at hk
    rw [← hk]
  · rw [if_neg h0] at hk
    simp only [Option.some.injEq, AskStep.cont.injEq] at hk
    rw [← hk]

theorem askMain_scroll_end (cfg : AskCfg) (st st' : AskSt)
    (hk : askMain cfg st (mkKey .endKey) = some (.cont st')) :
    st'.scroll = st.scroll := by
  simp only [mkKey, askMain] at hk
  by_cases h0 : st.focus = 0
  · rw [if_pos h0] at hk
    simp only [Option.some.injEq, AskStep.cont.injEq] at hk
    rw [← hk]
  · rw [if_neg h0] at hk
    simp only [Option.some.injEq, AskStep.cont.injEq] at hk
    rw [← hk]

/-! ### Claim theorems: input dialog -/

/-- Configuration used by concrete scenarios: no placeholders, a 60-column
text area, prompt width 2 (theme prompt `"> "`). -/
def cfgPlain : AskCfg := ⟨[], 60, 2⟩

/-- The state reached from an empty buffer by typing the 2-byte character
`é`. -/
def c1St : AskSt := ⟨['é'], 1, 0, 0, false, 0⟩

/-- C1: the claimed invariant is broken by the code.  Typing a 2-byte
character into an empty buffer is accepted (the step continues), but the
code advances `cursor_pos` by 1, leaving the cursor at byte offset 1,
strictly inside the character's UTF-8 encoding — not a code-point
boundary.  The next character insertion then panics (Rust
`String::insert` at a non-boundary offset), modelled by `none`. -/
theorem c1_multibyte_cursor_bug :
    askTick cfgPlain (askInit []) (mkChar 'é') = some (.cont c1St) ∧
    isBoundary c1St.input c1St.cursor = false ∧
    askTick cfgPlain c1St (mkChar 'x') = none := by
  refine ⟨by decide, by decide, by decide⟩

/-- C2: with the autocomplete popup not intercepting keys, Enter with
focus on the Input field (0) or the Send button (1) submits the buffer
exactly when it is non-empty; with an empty buffer the dialog keeps
running in the same state (only the autocomplete bookkeeping is
re-normalised, leaving text, cursor, focus and scroll unchanged); with
focus on the Cancel button (2) Enter cancels.  Concretely, typing
`hello` from the empty initial state and pressing Enter with focus on the
input yields `Submit "hello"`. -/
theorem c2_enter_submits (cfg : AskCfg) (st : AskSt) (comps : List (List Char))
    (hc : computeCompletions cfg st = some comps)
    (hni : ¬((updateFromComps st comps).acActive ∧ comps ≠ [])) :
    ((st.focus = 0 ∨ st.focus = 1) →
      (st.input ≠ [] → askTick cfg st (mkKey .enter) = some (.done (.submit st.input))) ∧
      (st.input = [] →
        askTick cfg st (mkKey .enter) = some (.cont (updateFromComps st comps)) ∧
        (updateFromComps st comps).input = st.input ∧
        (updateFromComps st comps).cursor = st.cursor ∧
        (updateFromComps st comps).focus = st.focus ∧
        (updateFromComps st comps).scroll = st.scroll)) ∧
    (st.focus = 2 → askTick cfg st (mkKey .enter) = some (.done .cancel)) ∧
    askRun cfgPlain (askInit [])
        [mkChar 'h', mkChar 'e', mkChar 'l', mkChar 'l', mkChar 'o', mkKey .enter] =
      some (some (.submit ['h', 'e', 'l', 'l', 'o'])) := by
  have htick0 : askTick cfg st (mkKey .enter) =
      askHandle cfg (updateFromComps st comps) comps (mkKey .enter) := by
    unfold askTick
    rw [hc]
  have htick : askTick cfg st (mkKey .enter) =
      askMain cfg (updateFromComps st comps) (mkKey .enter) := by
    rw [htick0]
    unfold askHandle
    rw [if_neg hni]
  refine ⟨?_, ?_, by decide⟩
  · intro hfoc
    constructor
    · intro hne
      rw [htick]
      simp only [mkKey, askMain]
      rw [if_pos (by simp [hfoc])]
      rw [if_neg (by simp [hne])]
      simp
    · intro hemp
      rw [htick]
      simp only [mkKey, askMain]
      rw [if_pos (by simp [hfoc]), if_pos (by simp [hemp])]
      simp
  · intro hfoc
    rw [htick]
    simp only [mkKey, askMain]
    rw [if_neg (by simp [hfoc]), if_pos (by simp [hfoc])]

/-- Witness for C2 at a concrete state: buffer `"h"`, focus on the input,
Enter submits. -/
theorem c2_enter_submits_witness :
    askTick cfgPlain (askInit ['h']) (mkKey .enter) = some (.done (.submit ['h'])) :=
  ((c2_enter_submits cfgPlain (askInit ['h']) [] (by decide) (by decide)).1
    (Or.inl rfl)).1 (by decide)

/-- C4 (amended): whenever one of the handlers that calls
`update_scroll_for_cursor` runs — character insertion, and effective
Backspace / Left / Right / Up / Down — the resulting state has the
cursor's visual row inside the visible window `[scroll, scroll + 5)`.
Delete, Home and End leave the scroll offset unchanged (they never call
`update_scroll_for_cursor`). -/
theorem c4_scroll_follows_cursor (cfg : AskCfg) (st st' : AskSt) :
    (∀ c : Char, st.focus = 0 → askTick cfg st (mkChar c) = some (.cont st') →
      cursorRowInWindow cfg st' = true) ∧
    (st.focus = 0 → 0 < st.cursor → askTick cfg st (mkKey .backspace) = some (.cont st') →
      cursorRowInWindow cfg st' = true) ∧
    (st.focus = 0 → 0 < st.cursor → askTick cfg st (mkKey .left) = some (.cont st') →
      cursorRowInWindow cfg st' = true) ∧
    (st.focus = 0 → st.cursor < utf8Len st.input →
      askTick cfg st (mkKey .right) = some (.cont st') →
      cursorRowInWindow cfg st' = true) ∧
    (st.focus = 0 → computeCompletions cfg st = some [] →
      0 < (cursor_to_line_col st.input st.cursor).1 →
      askTick cfg st (mkKey .up) = some (.cont st') → cursorRowInWindow cfg st' = true) ∧
    (st.focus = 0 → computeCompletions cfg st = some [] →
      (cursor_to_line_col st.input st.cursor).1 < count_lines st.input - 1 →
      askTick cfg st (mkKey .down) = some (.cont st') → cursorRowInWindow cfg st' = true) ∧
    (askTick cfg st (mkKey .delete) = some (.cont st') → st'.scroll = st.scroll) ∧
    (askTick cfg st (mkKey .home) = some (.cont st') → st'.scroll = st.scroll) ∧
    (askTick cfg st (mkKey .endKey) = some (.cont st') → st'.scroll = st.scroll) := by
  refine ⟨?_, ?_, ?_, ?_, ?_, ?_, ?_, ?_, ?_⟩
  · intro c h0 hk
    cases hc : computeCompletions cfg st with
    | none => rw [askTick_none cfg st _ hc] at hk; cases hk
    | some comps =>
      rw [askTick_some cfg st _ comps hc, askHandle_chr] at hk
      exact askMain_window_chr cfg _ c st' (by simp [h0]) hk
  · intro h0 hcur hk
    cases hc : computeCompletions cfg st with
    | none => rw [askTick_none cfg st _ hc] at hk; cases hk
    | some comps =>
      rw [askTick_some cfg st _ comps hc, askHandle_other cfg _ comps _ (Or.inl rfl)] at hk
      exact askMain_window_backspace cfg _ st' (by simp [h0]) (by simp [hcur]) hk
  · intro h0 hcur hk
    cases hc : computeCompletions cfg st with
    | none => rw [askTick_none cfg st _ hc] at hk; cases hk
    | some comps =>
      rw [askTick_some cfg st _ comps hc, askHandle_other cfg _ comps _ (Or.inr (Or.inr (Or.inl rfl)))] at hk
      exact askMain_window_left cfg _ st' (by simp [h0]) (by simp [hcur]) hk
  · intro h0 hcur hk
    cases hc : computeCompletions cfg st with
    | none => rw [askTick_none cfg st _ hc] at hk; cases hk
    | some comps =>
      rw [askTick_some cfg st _ comps hc, askHandle_other cfg _ comps _ (Or.inr (Or.inr (Or.inr (Or.inl rfl))))] at hk
      exact askMain_window_right cfg _ st' (by simp [h0]) (by simp [hcur]) hk
  · intro h0 hc hline hk
    rw [askTick_some cfg st _ [] hc, askHandle_nil_comps] at hk
    exact askMain_window_up cfg _ st' (by simp [h0]) (by simp) (by simp [hline]) hk
  · intro h0 hc hline hk
    rw [askTick_some cfg st _ [] hc, askHandle_nil_comps] at hk
    exact askMain_window_down cfg _ st' (by simp [h0]) (by simp) (by simp [hline]) hk
  · intro hk
    cases hc : computeCompletions cfg st with
    | none => rw [askTick_none cfg st _ hc] at hk; cases hk
    | some comps =>
      rw [askTick_some cfg st _ comps hc, askHandle_other cfg _ comps _ (Or.inr (Or.inl rfl))] at hk
      have := askMain_scroll_delete cfg _ st' hk
      simpa using this
  · intro hk
    cases hc : computeCompletions cfg st with
    | none => rw [askTick_none cfg st _ hc] at hk; cases hk
    | some comps =>
      rw [askTick_some cfg st _ comps hc, askHandle_other cfg _ comps _ (Or.inr (Or.inr (Or.inr (Or.inr (Or.inl rfl)))))] at hk
      have := askMain_scroll_home cfg _ st' hk
      simpa using this
  · intro hk
    cases hc : computeCompletions cfg st with
    | none => rw [askTick_none cfg st _ hc] at hk; cases hk
    | some comps =>
      rw [askTick_some cfg st _ comps hc,
        askHandle_other cfg _ comps _ (Or.inr (Or.inr (Or.inr (Or.inr (Or.inr rfl)))))] at hk
      have := askMain_scroll_end cfg _ st' hk
      simpa using this

/-- Witness for C4: in a 24-character buffer wrapped at effective width 4,
pressing Left from the initial state adjusts the scroll so the cursor row
is visible. -/
theorem c4_scroll_follows_cursor_witness :
    askTick ⟨[], 6, 2⟩ (askInit (List.replicate 24 'a')) (mkKey .left) =
      some (.cont ⟨List.replicate 24 'a', 23, 0, 1, false, 0⟩) ∧
    cursorRowInWindow ⟨[], 6, 2⟩ ⟨List.replicate 24 'a', 23, 0, 1, false, 0⟩ = true :=
  ⟨by decide,
    (c4_scroll_follows_cursor ⟨[], 6, 2⟩ (askInit (List.replicate 24 'a'))
      ⟨List.replicate 24 'a', 23, 0, 1, false, 0⟩).2.2.1 rfl (by decide) (by decide)⟩

/-- C4 counterexample: the claim as stated fails for Home.  From the
24-character buffer, Left first scrolls the window down to rows
`[1, 6)`; Home then moves the cursor to row 0 but leaves the scroll
offset at 1, so the cursor's visual row is outside the visible window. -/
theorem c4_home_no_scroll_counterexample :
    askTick ⟨[], 6, 2⟩ (askInit (List.replicate 24 'a')) (mkKey .left) =
      some (.cont ⟨List.replicate 24 'a', 23, 0, 1, false, 0⟩) ∧
    cursorRowInWindow ⟨[], 6, 2⟩ ⟨List.replicate 24 'a', 23, 0, 1, false, 0⟩ = true ∧
    askTick ⟨[], 6, 2⟩ ⟨List.replicate 24 'a', 23, 0, 1, false, 0⟩ (mkKey .home) =
      some (.cont ⟨List.replicate 24 'a', 0, 0, 1, false, 0⟩) ∧
    cursorRowInWindow ⟨[], 6, 2⟩ ⟨List.replicate 24 'a', 0, 0, 1, false, 0⟩ = false := by
  refine ⟨by decide, by decide, by decide, by decide⟩

theorem takeBytes_utf8Len : ∀ (l : List Char) (p : Nat) (pre : List Char),
    takeBytes l p = some pre → utf8Len pre = p := by
  intro l
  induction l with
  | nil =>
    intro p pre h
    cases p with
    | zero =>
      simp only [takeBytes, Option.some.injEq] at h
      rw [← h]
      rfl
    | succ q => simp [takeBytes] at h
  | cons c rest ih =>
    intro p pre h
    cases p with
    | zero =>
      simp only [takeBytes, Option.some.injEq] at h
      rw [← h]
      rfl
    | succ q =>
      simp only [takeBytes] at h
      by_cases hle : c.utf8Size ≤ q + 1
      · rw [if_pos hle] at h
        cases ht : takeBytes rest (q + 1 - c.utf8Size) with
        | none => rw [ht] at h; cases h
        | some pre' =>
          rw [ht] at h
          simp only [Option.map_some', Option.some.injEq] at h
          have := ih _ _ ht
          rw [← h, utf8Len_cons]
          omega
      · rw [if_neg hle] at h
        cases h

theorem strInsert_append (a b : List Char) (x : Char) :
    strInsert (a ++ b) (utf8Len a) x = some (a ++ x :: b) := by
  induction a with
  | nil => simp [utf8Len, strInsert]
  | cons c a' ih =>
    have hpos : 0 < c.utf8Size := Char.utf8Size_pos c
    obtain ⟨p, hp⟩ : ∃ p, utf8Len (c :: a') = p + 1 := by
      rw [utf8Len_cons]
      exact ⟨c.utf8Size + utf8Len a' - 1, by omega⟩
    rw [hp]
    show strInsert (c :: (a' ++ b)) (p + 1) x = _
    simp only [strInsert]
    rw [if_pos (by rw [utf8Len_cons] at hp; omega)]
    have he : p + 1 - c.utf8Size = utf8Len a' := by rw [utf8Len_cons] at hp; omega
    rw [he, ih]
    rfl

/-- C7: accepting a completion (Tab or Enter while the popup is active).
In any loop state whose autocomplete bookkeeping is as the loop
normalises it (`updateFromComps` is the identity on it), with the popup
active and the `@`-token spanning bytes `[atPos, cursor)` — so the buffer
splits as `pre ++ tok' ++ suf` with `utf8Len pre = atPos` — Tab or Enter
replaces that span with the selected placeholder name `comp`, appends
exactly one space, puts the cursor right after the space, and closes the
popup. -/
theorem c7_accept_completion (cfg : AskCfg) (st : AskSt) (comps : List (List Char)) (k : Key)
    (atPos : Nat) (tok pre suf comp : List Char)
    (hc : computeCompletions cfg st = some comps)
    (hfix : updateFromComps st comps = st)
    (hact : st.acActive = true) (hne : comps ≠ [])
    (hk : k = mkKey .tab ∨ k = mkKey .enter)
    (hat : findAtWord st.input st.cursor = some (some (atPos, tok)))
    (hcomp : comps[st.acSel]? = some comp)
    (hpre : takeBytes st.input atPos = some pre)
    (hsuf : dropBytes st.input st.cursor = some suf) :
    askTick cfg st k = some (.cont { st with
      input := pre ++ comp ++ ' ' :: suf,
      cursor := atPos + utf8Len comp + 1,
      acActive := false, acSel := 0 }) := by
  rw [askTick_some cfg st k comps hc, hfix]
  have haccept : acceptCompletion st comps = some (.cont { st with
      input := pre ++ comp ++ ' ' :: suf,
      cursor := atPos + utf8Len comp + 1,
      acActive := false, acSel := 0 }) := by
    have hlen : utf8Len (pre ++ comp) = atPos + utf8Len comp := by
      have := takeBytes_utf8Len st.input atPos pre hpre
      simp only [utf8Len, List.map_append, List.sum_append] at this ⊢
      omega
    have hins := strInsert_append (pre ++ comp) suf ' '
    rw [hlen] at hins
    simp only [acceptCompletion, hat, hcomp, hpre, hsuf]
    rw [hins]
  unfold askHandle
  rw [if_pos ⟨hact, hne⟩]
  rcases hk with rfl | rfl
  · exact haccept
  · exact haccept

/-- Witness for C7, the spec's concrete scenario: placeholders
`[@this, @buffer]`, buffer `"@t"` with the cursor at the end and the
popup showing `[@this]` with selection 0; Tab turns the buffer into
`"@this "` (trailing space), cursor at the end, popup inactive. -/
theorem c7_accept_completion_witness :
    askTick ⟨[['@', 't', 'h', 'i', 's'], ['@', 'b', 'u', 'f', 'f', 'e', 'r']], 60, 2⟩
        ⟨['@', 't'], 2, 0, 0, true, 0⟩ (mkKey .tab) =
      some (.cont ⟨['@', 't', 'h', 'i', 's', ' '], 6, 0, 0, false, 0⟩) := by
  have h := c7_accept_completion
    ⟨[['@', 't', 'h', 'i', 's'], ['@', 'b', 'u', 'f', 'f', 'e', 'r']], 60, 2⟩
    ⟨['@', 't'], 2, 0, 0, true, 0⟩ [['@', 't', 'h', 'i', 's']] (mkKey .tab)
    0 ['@', 't'] [] [] ['@', 't', 'h', 'i', 's']
    (by decide) (by decide) rfl (by decide) (Or.inl rfl) (by decide) (by decide)
    (by decide) (by decide)
  exact h

/-! ### Claim theorems: cursor round trip and wrapping -/

/-- C3 (amended): for every buffer of single-byte characters and every
byte position `p` in `[0, len(t)]` (all of which are boundaries),
converting with `cursor_to_line_col` and back with `line_col_to_cursor`
yields `p` again.  (For multi-byte buffers the round trip fails:
`cursor_to_line_col` counts columns in characters while
`line_col_to_cursor` clamps and adds the column in bytes.) -/
theorem c3_line_col_roundtrip (t : List Char) (p : Nat) (hA : Ascii t)
    (hp : p ≤ utf8Len t) :
    line_col_to_cursor t (cursor_to_line_col t p).1 (cursor_to_line_col t p).2 = p := by
  refine line_col_roundtrip t hA p ?_
  rw [← ascii_utf8Len hA]
  exact hp

/-- Witness for C3 at the buffer `"hello\nworld"` and position 8. -/
theorem c3_line_col_roundtrip_witness :
    line_col_to_cursor ['h', 'e', 'l', 'l', 'o', '\n', 'w', 'o', 'r', 'l', 'd']
        (cursor_to_line_col ['h', 'e', 'l', 'l', 'o', '\n', 'w', 'o', 'r', 'l', 'd'] 8).1
        (cursor_to_line_col ['h', 'e', 'l', 'l', 'o', '\n', 'w', 'o', 'r', 'l', 'd'] 8).2 = 8 :=
  c3_line_col_roundtrip ['h', 'e', 'l', 'l', 'o', '\n', 'w', 'o', 'r', 'l', 'd'] 8
    (by decide) (by decide)

/-- C3 counterexample: on the buffer `"é"` (one 2-byte character) the
position 2 is a boundary inside `[0, len]`, but the round trip returns 1:
`cursor_to_line_col` reports column 1 (one character), and
`line_col_to_cursor` adds that column as one byte. -/
theorem c3_roundtrip_counterexample :
    isBoundary ['é'] 2 = true ∧ 2 ≤ utf8Len ['é'] ∧
    line_col_to_cursor ['é'] (cursor_to_line_col ['é'] 2).1
      (cursor_to_line_col ['é'] 2).2 ≠ 2 := by decide

/-- C6: for every buffer and every wrap width W ≥ 1, the visual lines
produced by `wrap_text`, concatenated in order within each logical line
and joined with newlines between logical lines (`reassemble`), equal the
original buffer.  (The reassembly in fact holds for every width.) -/
theorem c6_wrap_reassembles (text : List Char) (width pw : Nat) (hW : 1 ≤ width) :
    reassemble (wrap_text text width pw) = text := by
  rw [wrap_text_eq]
  rw [reassemble_wrapLines width pw (splitNl text) 0 0 (splitNl_ne_nil text)]
  exact joinNl_splitNl text

/-- Witness for C6: a buffer that wraps into several rows at width 12
with prompt width 2. -/
theorem c6_wrap_reassembles_witness :
    reassemble (wrap_text
        ['h', 'e', 'l', 'l', 'o', ' ', 'w', 'o', 'r', 'l', 'd', '\n', 'f', 'o', 'o'] 12 2) =
      ['h', 'e', 'l', 'l', 'o', ' ', 'w', 'o', 'r', 'l', 'd', '\n', 'f', 'o', 'o'] :=
  c6_wrap_reassembles
    ['h', 'e', 'l', 'l', 'o', ' ', 'w', 'o', 'r', 'l', 'd', '\n', 'f', 'o', 'o'] 12 2
    (by decide)

/-! ### Claim C5: autocomplete activation -/

/-- The activation bit of the popup as `run_ask` computes it: the value
of `autocomplete_active` right after the per-iteration update; `none`
models the panic of the slice inside `find_at_word`. -/
def popupActive (cfg : AskCfg) (st : AskSt) : Option Bool :=
  match computeCompletions cfg st with
  | none => none
  | some comps => some (updateFromComps st comps).acActive

/-- The claim's activation condition, written from the spec's words: the
substring from the most recent `'@'` before the cursor up to the cursor
contains no whitespace. -/
def specTokenNoWhitespace (text : List Char) (cursor : Nat) : Bool :=
  match takeBytes text cursor with
  | none => false
  | some before =>
    let seg := before.reverse.takeWhile (fun c => ¬ c = '@')
    if seg.length = before.length then false
    else !(('@' :: seg.reverse).any Char.isWhitespace)

/-- The amended activation condition, in the spec's vocabulary: focus on
the input, the substring from the most recent `'@'` before the cursor up
to the cursor contains no space, and some placeholder name
case-insensitively starts with that substring. -/
def specPopupActive (names : List (List Char)) (text : List Char) (cursor focus : Nat) : Bool :=
  match takeBytes text cursor with
  | none => false
  | some before =>
    let seg := before.reverse.takeWhile (fun c => ¬ c = '@')
    if seg.length = before.length then false
    else
      let tok := '@' :: seg.reverse
      (!tok.contains ' ') && names.any (fun n => (lowerStr tok).isPrefixOf (lowerStr n)) &&
        decide (focus = 0)

theorem takeWhile_append_of_all {p : Char → Bool} (xs ys : List Char)
    (h : ∀ x ∈ xs, p x) : (xs ++ ys).takeWhile p = xs ++ ys.takeWhile p := by
  induction xs with
  | nil => simp
  | cons a as ih =>
    have ha : p a := h a (by simp)
    simp [List.takeWhile_cons, ha, ih (fun x hx => h x (by simp [hx]))]

theorem takeWhile_append_stop {p : Char → Bool} (xs ys : List Char)
    (h : ∃ x ∈ xs, p x = false) : (xs ++ ys).takeWhile p = xs.takeWhile p := by
  induction xs with
  | nil => simp at h
  | cons a as ih =>
    by_cases ha : p a
    · have has : ∃ x ∈ as, p x = false := by
        obtain ⟨x, hx, hpx⟩ := h
        rcases List.mem_cons.mp hx with rfl | hx'
        · rw [ha] at hpx; cases hpx
        · exact ⟨x, hx', hpx⟩
      simp [List.takeWhile_cons, ha, ih has]
    · have ha' : p a = false := by revert ha; cases p a <;> simp
      simp [List.takeWhile_cons, ha']

theorem rfindAt_none_of_not_mem (l : List Char) (h : '@' ∉ l) : rfindAt l = none := by
  induction l with
  | nil => rfl
  | cons c rest ih =>
    have hc : ¬ c = '@' := fun hx => h (hx ▸ List.mem_cons_self c rest)
    have hr : rfindAt rest = none := ih (fun hx => h (List.mem_cons_of_mem c hx))
    simp only [rfindAt, hr]
    rw [if_neg hc]

theorem rfindAt_isSome_of_mem (l : List Char) (h : '@' ∈ l) : rfindAt l ≠ none := by
  induction l with
  | nil => simp at h
  | cons c rest ih =>
    simp only [rfindAt]
    cases hr : rfindAt rest with
    | some pr =>
      obtain ⟨p, suf⟩ := pr
      simp
    | none =>
      have hc : c = '@' := by
        rcases List.mem_cons.mp h with h1 | h2
        · exact h1.symm
        · exact absurd hr (ih h2)
      rw [if_pos hc]
      simp

theorem mem_of_rfindAt_some (l : List Char) (p : Nat) (suf : List Char)
    (h : rfindAt l = some (p, suf)) : '@' ∈ l := by
  by_contra hmem
  rw [rfindAt_none_of_not_mem l hmem] at h
  cases h

/-- The suffix returned by `rfind('@')` is exactly `'@'` followed by the
(reversed) characters scanned back from the end before the first `'@'`. -/
theorem rfindAt_suffix (l : List Char) : ∀ p suf, rfindAt l = some (p, suf) →
    suf = '@' :: (l.reverse.takeWhile (fun c => ¬ c = '@')).reverse := by
  induction l with
  | nil => intro p suf h; cases h
  | cons c rest ih =>
    intro p suf h
    simp only [rfindAt] at h
    cases hr : rfindAt rest with
    | some pr =>
      obtain ⟨p', suf'⟩ := pr
      rw [hr] at h
      simp only [Option.some.injEq, Prod.mk.injEq] at h
      have hsuf := ih p' suf' hr
      have hmem : '@' ∈ rest := mem_of_rfindAt_some rest p' suf' hr
      rw [List.reverse_cons, takeWhile_append_stop _ _ ⟨'@', by simp [hmem], by simp⟩]
      rw [← h.2, hsuf]
    | none =>
      rw [hr] at h
      have hnm : '@' ∉ rest := fun hm => rfindAt_isSome_of_mem rest hm hr
      by_cases hc : c = '@'
      · rw [if_pos hc] at h
        simp only [Option.some.injEq, Prod.mk.injEq] at h
        rw [List.reverse_cons,
          takeWhile_append_of_all _ _ (fun x hx => by
            simp only [decide_eq_true_eq]
            intro hx'
            exact hnm (hx' ▸ List.mem_reverse.mp hx))]
        rw [← h.2, hc]
        simp [List.takeWhile_cons]
      · rw [if_neg hc] at h
        cases h

theorem updateFromComps_acActive (st : AskSt) (comps : List (List Char)) :
    (updateFromComps st comps).acActive = decide (comps ≠ [] ∧ st.focus = 0) := by
  unfold updateFromComps
  by_cases h : comps ≠ [] ∧ st.focus = 0
  · rw [if_pos h]
    simp [h]
  · rw [if_neg h]
    simp [h]

theorem filter_ne_nil_iff_any {α : Type} (p : α → Bool) (l : List α) :
    (l.filter p ≠ []) ↔ l.any p = true := by
  induction l with
  | nil => simp
  | cons a as ih => by_cases h : p a <;> simp [List.filter_cons, h, ih]

/-- C5 (amended): the popup's activation bit, as recomputed by the loop,
is active iff focus is on the input, the substring from the most recent
`'@'` before the cursor up to the cursor contains no space, and at least
one placeholder name case-insensitively starts with that substring. -/
theorem c5_popup_activation (cfg : AskCfg) (st : AskSt) (b : Bool)
    (h : popupActive cfg st = some b) :
    b = specPopupActive cfg.placeholderNames st.input st.cursor st.focus := by
  cases htb : takeBytes st.input st.cursor with
  | none =>
    simp only [popupActive, computeCompletions, findAtWord, htb] at h
    exact Option.noConfusion h
  | some before =>
    simp only [popupActive, computeCompletions, findAtWord, htb] at h
    cases hrf : rfindAt before with
    | none =>
      simp only [hrf, Option.some.injEq] at h
      have hnm : '@' ∉ before := fun hm => rfindAt_isSome_of_mem before hm hrf
      have hseg : before.reverse.takeWhile (fun c => ¬ c = '@') = before.reverse := by
        rw [List.takeWhile_eq_self_iff]
        intro x hx
        simp only [decide_eq_true_eq]
        intro hx'
        exact hnm (hx' ▸ List.mem_reverse.mp hx)
      have hlen : (before.reverse.takeWhile (fun c => ¬ c = '@')).length = before.length := by
        rw [hseg, List.length_reverse]
      simp only [specPopupActive, htb, if_pos hlen]
      rw [← h]
      exact updateFromComps_nil_acActive st
    | some pr =>
      obtain ⟨p, suf⟩ := pr
      have hmem : '@' ∈ before := mem_of_rfindAt_some before p suf hrf
      have hguard : ¬ ((before.reverse.takeWhile (fun c => ¬ c = '@')).length =
          before.length) := by
        intro hx
        have hpre : before.reverse.takeWhile (fun c => ¬ c = '@') <+: before.reverse :=
          List.takeWhile_prefix _
        have heq : before.reverse.takeWhile (fun c => ¬ c = '@') = before.reverse :=
          hpre.eq_of_length (by rw [hx, List.length_reverse])
        have hall := List.takeWhile_eq_self_iff.mp heq '@' (List.mem_reverse.mpr hmem)
        simp at hall
      have hsufeq := rfindAt_suffix before p suf hrf
      simp only [hrf] at h
      simp only [specPopupActive, htb, if_neg hguard]
      rw [← hsufeq]
      by_cases hsp : suf.contains ' ' = true
      · simp only [if_pos hsp, Option.some.injEq] at h
        rw [← h, hsp]
        simp
      · rw [if_neg hsp] at h
        simp only [Option.some.injEq] at h
        rw [updateFromComps_acActive] at h
        have hfilter : (filterPlaceholders suf cfg.placeholderNames ≠ []) ↔
            cfg.placeholderNames.any
              (fun n => (lowerStr suf).isPrefixOf (lowerStr n)) = true :=
          filter_ne_nil_iff_any _ cfg.placeholderNames
        have hd : decide (filterPlaceholders suf cfg.placeholderNames ≠ []) =
            cfg.placeholderNames.any (fun n => (lowerStr suf).isPrefixOf (lowerStr n)) := by
          cases hv : cfg.placeholderNames.any
              (fun n => (lowerStr suf).isPrefixOf (lowerStr n)) with
          | true => exact decide_eq_true (hfilter.mpr hv)
          | false =>
            refine decide_eq_false ?_
            intro hne
            rw [hfilter.mp hne] at hv
            cases hv
        have hsplit : decide (filterPlaceholders suf cfg.placeholderNames ≠ [] ∧
              st.focus = 0) =
            (decide (filterPlaceholders suf cfg.placeholderNames ≠ []) &&
              decide (st.focus = 0)) := by
          by_cases h1 : filterPlaceholders suf cfg.placeholderNames ≠ [] <;>
            by_cases h2 : st.focus = 0 <;> simp [h1, h2]
        have hb : (!suf.contains ' ') = true := by
          revert hsp
          cases suf.contains ' ' <;> simp
        rw [← h, hsplit, hd, hb, Bool.true_and]

/-- Witness for C5 at the scenario state: placeholders `[@this]`, buffer
`"@t"` with cursor at the end and focus on the input — the popup is
active, matching the amended condition. -/
theorem c5_popup_activation_witness :
    popupActive ⟨[['@', 't', 'h', 'i', 's']], 60, 2⟩ ⟨['@', 't'], 2, 0, 0, false, 0⟩ =
      some true ∧
    true = specPopupActive [['@', 't', 'h', 'i', 's']] ['@', 't'] 2 0 :=
  ⟨by decide,
    c5_popup_activation ⟨[['@', 't', 'h', 'i', 's']], 60, 2⟩ ⟨['@', 't'], 2, 0, 0, false, 0⟩
      true (by decide)⟩

/-- C5 counterexample, both directions of the claimed equivalence.
With placeholders `[@this]` and buffer `"@x"` (cursor at the end, focus
on the input) the cursor sits in an `@`-token with no whitespace, yet the
popup is inactive (no placeholder matches).  With the placeholder name
`"@a\tb"` and that same buffer, the token contains a tab — whitespace —
between the `'@'` and the cursor, yet the popup is active (the code only
checks for spaces). -/
theorem c5_activation_counterexample :
    (specTokenNoWhitespace ['@', 'x'] 2 = true ∧
      popupActive ⟨[['@', 't', 'h', 'i', 's']], 60, 2⟩ ⟨['@', 'x'], 2, 0, 0, false, 0⟩ =
        some false) ∧
    (specTokenNoWhitespace ['@', 'a', '\t', 'b'] 4 = false ∧
      popupActive ⟨[['@', 'a', '\t', 'b']], 60, 2⟩ ⟨['@', 'a', '\t', 'b'], 4, 0, 0, false, 0⟩ =
        some true) := by decide

/-! ### The selection dialog (`run_select` from `src/tui/app.rs`) -/

/-- An item of the selection menu (struct `SelectItem`). -/
structure SelectItem where
  name : List Char
  description : List Char
  value : List Char
  category : List Char
deriving DecidableEq

/-- The mutable state of the `run_select` loop (the blink flag is
render-only and omitted). -/
structure SelSt where
  filter : List Char
  selected : Nat
deriving DecidableEq

/-- One step of the selection loop: keep running or return. -/
inductive SelStep
  | cont (st : SelSt)
  | done (r : AppRes)
deriving DecidableEq

/-- The per-item filter predicate: empty filter matches everything,
otherwise case-insensitive substring match on name or description. -/
def itemMatches (flt : List Char) (it : SelectItem) : Bool :=
  if flt.isEmpty then true
  else
    strContains (lowerStr it.name) (lowerStr flt) ||
      strContains (lowerStr it.description) (lowerStr flt)

/-- The filtered view: `items.iter().enumerate().filter(...)`. -/
def filteredItems (items : List SelectItem) (flt : List Char) : List (Nat × SelectItem) :=
  items.enum.filter (fun pr => itemMatches flt pr.2)

/-- The clamp performed after every rebuild:
`if selected >= filtered.len() { selected = filtered.len().saturating_sub(1) }`
(`Nat` subtraction is saturating). -/
def clampSelected (filteredLen sel : Nat) : Nat :=
  if filteredLen ≤ sel then filteredLen - 1 else sel

/-- Up / `k` / Control+P: move up, bounded at 0. -/
def selUp (st : SelSt) : SelSt :=
  if 0 < st.selected then { st with selected := st.selected - 1 } else st

/-- Down / `j` / Control+N: move down, bounded at the last index. -/
def selDown (filteredLen : Nat) (st : SelSt) : SelSt :=
  if st.selected < filteredLen - 1 then { st with selected := st.selected + 1 } else st

/-- Key dispatch of `run_select`, arms in source order. -/
def selectHandle (filtered : List (Nat × SelectItem)) (st : SelSt) (k : Key) : SelStep :=
  match k.code with
  | .enter =>
    match filtered[st.selected]? with
    | some pr => .done (.submit pr.2.value)
    | none => .cont st
  | .esc => .done .cancel
  | .chr c =>
    if c = 'c' ∧ k.ctrl then .done .cancel
    else if c = 'k' then .cont (selUp st)
    else if c = 'p' ∧ k.ctrl then .cont (selUp st)
    else if c = 'j' then .cont (selDown filtered.length st)
    else if c = 'n' ∧ k.ctrl then .cont (selDown filtered.length st)
    else if k.ctrl = false ∧ k.alt = false then .cont { st with filter := st.filter ++ [c] }
    else .cont st
  | .up => .cont (selUp st)
  | .down => .cont (selDown filtered.length st)
  | .backspace => .cont { st with filter := st.filter.dropLast }
  | _ => .cont st

/-- One iteration of `run_select`: rebuild the filtered view, clamp the
selection, dispatch the key. -/
def selectTick (items : List SelectItem) (st : SelSt) (k : Key) : SelStep :=
  let filtered := filteredItems items st.filter
  selectHandle filtered { st with selected := clampSelected filtered.length st.selected } k

/-- C8: after every rebuild of the filtered view, the clamped selection
is `< len(filtered)` whenever the view is non-empty, is 0 when it is
empty, and an out-of-range selection is clamped to the last index
(0 ≤ selected holds trivially over `Nat`). -/
theorem c8_selected_in_range (items : List SelectItem) (flt : List Char) (sel : Nat) :
    (filteredItems items flt ≠ [] →
      clampSelected (filteredItems items flt).length sel < (filteredItems items flt).length) ∧
    (filteredItems items flt = [] →
      clampSelected (filteredItems items flt).length sel = 0) ∧
    ((filteredItems items flt).length ≤ sel →
      clampSelected (filteredItems items flt).length sel =
        (filteredItems items flt).length - 1) := by
  unfold clampSelected
  refine ⟨?_, ?_, ?_⟩
  · intro hne
    have hpos : 0 < (filteredItems items flt).length := List.length_pos.mpr hne
    split_ifs <;> omega
  · intro he
    rw [he]
    simp
  · intro hle
    rw [if_pos hle]

/-- Items of the spec's selection scenarios. -/
def demoItems : List SelectItem :=
  [⟨['e', 'x', 'p', 'l', 'a', 'i', 'n'], [], ['E'], []⟩,
   ⟨['r', 'e', 'v', 'i', 'e', 'w'], [], ['R'], []⟩,
   ⟨['f', 'i', 'x'], [], ['F'], []⟩]

/-- Witness for C8, the spec's scenario 6: typing `r` narrows the view to
`[review]` and the selection (previously 2, on `fix`) clamps to 0. -/
theorem c8_selected_in_range_witness :
    filteredItems demoItems ['r'] ≠ [] ∧
    clampSelected (filteredItems demoItems ['r']).length 2 <
      (filteredItems demoItems ['r']).length :=
  ⟨by decide, (c8_selected_in_range demoItems ['r'] 2).1 (by decide)⟩

/-- C10: pressing Enter while the filtered view is empty neither returns
from the dialog nor crashes: `filtered.get(selected)` is `None`, so the
state (filter and the already-clamped selection index 0) is returned
unchanged and the loop continues. -/
theorem c10_enter_empty_filtered (items : List SelectItem) (st : SelSt)
    (hf : filteredItems items st.filter = []) (hs : st.selected = 0) :
    selectTick items st (mkKey .enter) = .cont st := by
  obtain ⟨flt, sel⟩ := st
  simp only at hs
  subst hs
  unfold selectTick
  simp only at hf
  simp [hf, clampSelected, selectHandle, mkKey]

/-- Witness for C10: the demo items with filter `"zz"` (empty view);
Enter leaves the dialog running with the state unchanged. -/
theorem c10_enter_empty_filtered_witness :
    selectTick demoItems ⟨['z', 'z'], 0⟩ (mkKey .enter) = .cont ⟨['z', 'z'], 0⟩ :=
  c10_enter_empty_filtered demoItems ⟨['z', 'z'], 0⟩ (by decide) rfl

/-! ### Claim C9: terminal mode traces (`App::with_theme`, `App::restore`) -/

/-- A terminal side effect. -/
inductive TermEv
  | rawOn
  | rawOff
  | write (s : List Char)
  | flushOut
  | showCursor
deriving DecidableEq

def escAltOn : List Char := ['\x1b', '[', '?', '1', '0', '4', '9', 'h']
def escAltOff : List Char := ['\x1b', '[', '?', '1', '0', '4', '9', 'l']
def escMouseOn : List Char := ['\x1b', '[', '?', '1', '0', '0', '0', 'h']
def escMouseOff : List Char := ['\x1b', '[', '?', '1', '0', '0', '0', 'l']

/-- The terminal side effects of `App::with_theme`, in source order:
`enable_raw_mode()`, then `write!(tty, "ESC[?1049h")`,
`write!(tty, "ESC[?1000h")`, `tty.flush()`. -/
def withThemeTrace : List TermEv :=
  [.rawOn, .write escAltOn, .write escMouseOn, .flushOut]

/-- The terminal side effects of `App::restore`, in source order:
`disable_raw_mode()`, `write!(tty, "ESC[?1000l")`,
`write!(tty, "ESC[?1049l")`, flush, `show_cursor()`. -/
def restoreTrace : List TermEv :=
  [.rawOff, .write escMouseOff, .write escAltOff, .flushOut, .showCursor]

/-- The mode-changing events the claim constrains. -/
def isModeEv : TermEv → Bool
  | .rawOn => true
  | .rawOff => true
  | .write s => decide (s = escAltOn ∨ s = escMouseOn ∨ s = escAltOff ∨ s = escMouseOff)
  | _ => false

/-- C9 counterexample: the claim places raw-mode engagement strictly
between the two entry sequences; in the code it precedes both of them. -/
theorem c9_raw_between_counterexample :
    withThemeTrace.filter isModeEv ≠
      [.write escAltOn, .rawOn, .write escMouseOn] := by decide

/-- C9 (amended): on entry the program engages raw mode first and then
emits exactly `ESC[?1049h` followed by `ESC[?1000h`; on exit it disables
raw mode first and then emits exactly `ESC[?1000l` followed by
`ESC[?1049l`. -/
theorem c9_mode_event_order :
    withThemeTrace.filter isModeEv = [.rawOn, .write escAltOn, .write escMouseOn] ∧
    restoreTrace.filter isModeEv = [.rawOff, .write escMouseOff, .write escAltOff] := by
  decide

end Hx
